import Mathlib

/-!
Verification development for the GraphVQA repository's edge-conditioned graph
attention operator (`gat`, src/gat_skip.py), its layer-stack driver
(`gat_seq`, src/gat_skip.py), and the checkpoint restore helper
(`optimistic_restore`, src/util/pytorch_misc.py).

Tensors are shallowly embedded as lists over a linear ordered field `K`.
The exponential used inside the grouped softmax (a library routine,
`torch_geometric.utils.softmax`) is abstracted as a parameter `ex : K → K`;
the only property of the real exponential the source relies on for the
normalization invariant is strict positivity, which theorems take as a
hypothesis.  (The library softmax subtracts the per-group maximum before
exponentiating; over an exact field that rescaling cancels, so the plain
form is used.)  Likewise the square root inside batch normalization (a
library routine, `torch.nn.BatchNorm1d`) is abstracted as `sq : K → K`.
Dropout's random keep-mask is threaded explicitly as data, per the standard
inverted-dropout semantics of `torch.nn.functional.dropout`.
-/

namespace GraphVQA

variable {K : Type} [LinearOrderedField K]

/-- Dot product of two coordinate lists (`(a * b).sum(dim=-1)` on aligned data). -/
def dotL (a b : List K) : K := (List.zipWith (fun x y => x * y) a b).sum

/-- Componentwise vector addition. -/
def addV (a b : List K) : List K := List.zipWith (fun x y => x + y) a b

/-- Componentwise matrix addition (e.g. `conv_res + h`). -/
def addM (a b : List (List K)) : List (List K) := List.zipWith (addV) a b

/-- Elementwise `v * a`: scale every coordinate of `v` on the right by `a`
(the broadcast `x_j * alpha.unsqueeze(-1)` of `gat.message`). -/
def smulV (a : K) (v : List K) : List K := v.map (fun x => x * a)

/-- Embedding of `torch.nn.Linear(..., bias=False)`: each output coordinate is the dot
product of a weight row with the input vector. -/
def matVec (W : List (List K)) (v : List K) : List K := W.map (fun r => dotL r v)

/-- Embedding of `.view(-1, H, C)` on a single row: split a flat vector into `H` chunks of
length `C`. -/
def chunkHeads {α : Type} : Nat → Nat → List α → List (List α)
  | 0, _, _ => []
  | h + 1, c, l => l.take c :: chunkHeads h c (l.drop c)

/-- Embedding of `F.leaky_relu` with negative slope `s`. -/
def leakyRelu (s : K) (x : K) : K := if x < 0 then s * x else x

/-- Row `i` of a matrix, defaulting to `[]` out of range. -/
def mrow (m : List (List K)) (i : Nat) : List K := m.getD i []

/-- Per-node, per-head block of a rank-3 list, defaulting to `[]`. -/
def hrow (m : List (List (List K))) (i h : Nat) : List K := (m.getD i []).getD h []

/-- Sum of a list of length-`c` vectors, starting from the zero vector
(the `aggr='add'` scatter of `MessagePassing.propagate`). -/
def vsum (c : Nat) (l : List (List K)) : List K := l.foldr addV (List.replicate c 0)

/-!  ### Parameters of the `gat` operator (its `__init__` state)  -/

/-- Learned state and configuration of one `gat` operator. -/
structure GatParams (K : Type) where
  heads : Nat
  out_channels : Nat
  negative_slope : K
  dropout : K
  add_self_loops : Bool
  concat : Bool
  lin_l : List (List K)
  lin_r : List (List K)
  lin_e : List (List K)
  att_l : List (List K)
  att_r : List (List K)
  att_e : List (List K)
  bias : Option (List K)

/-- Embedding of `gat.__init__`: when `in_channels` is a single integer the target
projection reuses the source projection (`self.lin_r = self.lin_l`);
a pair of integers yields an independent `lin_r`. -/
def gatInit (in_channels : Nat ⊕ (Nat × Nat)) (out_channels heads : Nat)
    (negative_slope dropout : K) (add_self_loops concat : Bool)
    (wl wr we al ar ae : List (List K)) (b : Option (List K)) : GatParams K :=
  { heads := heads
    out_channels := out_channels
    negative_slope := negative_slope
    dropout := dropout
    add_self_loops := add_self_loops
    concat := concat
    lin_l := wl
    lin_r := match in_channels with
      | .inl _ => wl
      | .inr _ => wr
    lin_e := we
    att_l := al
    att_r := ar
    att_e := ae
    bias := b }

/-!  ### The `gat.forward` pipeline  -/

/-- Projection `self.lin_?(v).view(-1, H, C)` for one node or edge row. -/
def projHeads (P : GatParams K) (W : List (List K)) (v : List K) : List (List K) :=
  chunkHeads P.heads P.out_channels (matVec W v)

/-- All projected source-node features `x_l`. -/
def xlMat (P : GatParams K) (x : List (List K)) : List (List (List K)) :=
  x.map (projHeads P P.lin_l)

/-- All projected target-node features `x_r`. -/
def xrMat (P : GatParams K) (x : List (List K)) : List (List (List K)) :=
  x.map (projHeads P P.lin_r)

/-- All projected edge features `self.lin_e(edge_attr).view(-1, H, C)`. -/
def eMat (P : GatParams K) (edge_attr : List (List K)) : List (List (List K)) :=
  edge_attr.map (projHeads P P.lin_e)

/-- Reduction `(xh * att).sum(dim=-1)` for one node: one scalar per head. -/
def alphaVec (att : List (List K)) (xh : List (List K)) : List K :=
  List.zipWith dotL att xh

/-- Embedding of `alpha_l = (x_l * self.att_l).sum(dim=-1)`, one row per node. -/
def alphaL (P : GatParams K) (x : List (List K)) : List (List K) :=
  (xlMat P x).map (alphaVec P.att_l)

/-- Embedding of `alpha_r = (x_r * self.att_r).sum(dim=-1)`, one row per node. -/
def alphaR (P : GatParams K) (x : List (List K)) : List (List K) :=
  (xrMat P x).map (alphaVec P.att_r)

/-- Embedding of `alpha_e = (e * self.att_e).sum(dim=-1)`, one row per edge. -/
def alphaE (P : GatParams K) (edge_attr : List (List K)) : List (List K) :=
  (eMat P edge_attr).map (alphaVec P.att_e)

/-- Target node of the `p`-th edge (`edge_index[1]`, the index the messages
are aggregated into under the default source-to-target flow). -/
def tgtAt (edges : List (Nat × Nat)) (p : Nat) : Nat := (edges.getD p (0, 0)).2

/-- Source node of the `p`-th edge (`edge_index[0]`). -/
def srcAt (edges : List (Nat × Nat)) (p : Nat) : Nat := (edges.getD p (0, 0)).1

/-- Entry `(p, h)` of an edge-by-head matrix, defaulting to `0`. -/
def lgAt (lg : List (List K)) (p h : Nat) : K := (lg.getD p []).getD h 0

/-- Pre-nonlinearity logits of `gat.message`:
`alpha = alpha_j + alpha_i; alpha += alpha_e`, i.e. for the `p`-th edge
`(s, t)` the per-head sum `alpha_l[s] + alpha_r[t] + alpha_e[p]`. -/
def rawLogits (P : GatParams K) (x : List (List K)) (edges : List (Nat × Nat))
    (edge_attr : List (List K)) : List (List K) :=
  (List.range edges.length).map (fun p =>
    addV (addV (mrow (alphaL P x) (srcAt edges p)) (mrow (alphaR P x) (tgtAt edges p)))
      (mrow (alphaE P edge_attr) p))

/-- Embedding of `alpha = F.leaky_relu(alpha, self.negative_slope)` applied to every logit. -/
def logits (P : GatParams K) (x : List (List K)) (edges : List (Nat × Nat))
    (edge_attr : List (List K)) : List (List K) :=
  (rawLogits P x edges edge_attr).map (List.map (leakyRelu P.negative_slope))

/-- Softmax denominator for group `j` and head `h`: the sum of `ex` over the
logits of every edge whose target is `j`. -/
def smDenom (ex : K → K) (edges : List (Nat × Nat)) (lg : List (List K))
    (j h : Nat) : K :=
  (((List.range lg.length).filter (fun q => tgtAt edges q == j)).map
    (fun q => ex (lgAt lg q h))).sum

/-- Embedding of `torch_geometric.utils.softmax(alpha, index, ...)` with `index` the edge
targets: normalize the logits within each target-node group, per head. -/
def softmaxAlpha (ex : K → K) (edges : List (Nat × Nat)) (lg : List (List K))
    (H : Nat) : List (List K) :=
  (List.range lg.length).map (fun p =>
    (List.range H).map (fun h =>
      ex (lgAt lg p h) / smDenom ex edges lg (tgtAt edges p) h))

/-- Inverted dropout on one scalar at position `(p, h)` of the attention
matrix: in training mode a dropped entry becomes `0` and a kept entry is
rescaled by `1 / (1 - pr)`; in eval mode the value passes through. -/
def dropAt (training : Bool) (pr : K) (mask : List (List Bool)) (p h : Nat)
    (v : K) : K :=
  if training then (if (mask.getD p []).getD h true then v / (1 - pr) else 0) else v

/-- Embedding of `alpha = F.dropout(alpha, p=self.dropout, training=self.training)`. -/
def alphaDropped (training : Bool) (pr : K) (mask : List (List Bool))
    (al : List (List K)) : List (List K) :=
  (List.range al.length).map (fun p =>
    (List.range (al.getD p []).length).map (fun h =>
      dropAt training pr mask p h (lgAt al p h)))

/-- The attention weights `gat.message` caches in `self._alpha`
(post-softmax, pre-dropout). -/
def gatAlpha (ex : K → K) (P : GatParams K) (x : List (List K))
    (edges : List (Nat × Nat)) (edge_attr : List (List K)) : List (List K) :=
  softmaxAlpha ex edges (logits P x edges edge_attr) P.heads

/-- Per-edge, per-head message of `gat.message`:
`x_j * alpha.unsqueeze(-1)` — the projected source feature of edge `p`,
head `h`, scaled by that edge's post-dropout attention weight. -/
def msgAt (ex : K → K) (P : GatParams K) (x : List (List K))
    (edges : List (Nat × Nat)) (edge_attr : List (List K))
    (training : Bool) (amask : List (List Bool)) (p h : Nat) : List K :=
  smulV (lgAt (alphaDropped training P.dropout amask (gatAlpha ex P x edges edge_attr)) p h)
    (hrow (xlMat P x) (srcAt edges p) h)

/-- Sum-aggregation of messages into target node `i`, head `h`
(`aggr='add'` over the incoming-edge positions of `i`). -/
def aggAt (ex : K → K) (P : GatParams K) (x : List (List K))
    (edges : List (Nat × Nat)) (edge_attr : List (List K))
    (training : Bool) (amask : List (List Bool)) (i h : Nat) : List K :=
  vsum P.out_channels
    (((List.range edges.length).filter (fun p => tgtAt edges p == i)).map
      (fun p => msgAt ex P x edges edge_attr training amask p h))

/-- Embedding of `out.mean(dim=1)`: channelwise average of the `H` head vectors. -/
def meanHeads (P : GatParams K) (hs : List (List K)) : List K :=
  (List.range P.out_channels).map (fun c =>
    (hs.map (fun r => r.getD c 0)).sum / (P.heads : K))

/-- Embedding of `out += self.bias` on one output row (no-op when bias is disabled). -/
def addBias (b : Option (List K)) (row : List K) : List K :=
  match b with
  | none => row
  | some bv => addV row bv

/-- Output row for node `i`: aggregate all heads, then either concatenate
(`out.view(-1, heads * out_channels)`) or head-average (`out.mean(dim=1)`),
then add the bias. -/
def outRow (ex : K → K) (P : GatParams K) (x : List (List K))
    (edges : List (Nat × Nat)) (edge_attr : List (List K))
    (training : Bool) (amask : List (List Bool)) (i : Nat) : List K :=
  let hs := (List.range P.heads).map (aggAt ex P x edges edge_attr training amask i)
  addBias P.bias (if P.concat then hs.flatten else meanHeads P hs)

/-- Result of one `gat.forward` call: the node output, the optional
`(edge_index, attention_weights)` pair, and the value of the transient
`self._alpha` field after the call returns. -/
structure GatResult (K : Type) where
  out : List (List K)
  attn : Option (List (Nat × Nat) × List (List K))
  alphaState : Option (List (List K))

/-- Embedding of `gat.forward`.  Here `alpha0` is the value of `self._alpha` before the call;
the body caches the softmax output in `self._alpha` during `propagate`, reads
it back, and resets the field to `None` before returning.  The
`(edge_index, alpha)` pair is returned exactly when `return_attention_weights`
is a `bool` (`isinstance(return_attention_weights, bool)`), i.e. when the
optional argument is not `None`. -/
def gatForwardS (ex : K → K) (P : GatParams K) (x : List (List K))
    (edges : List (Nat × Nat)) (edge_attr : List (List K))
    (training : Bool) (amask : List (List Bool))
    (retAttn : Option Bool) (alpha0 : Option (List (List K))) : GatResult K :=
  let _ := alpha0
  let al := gatAlpha ex P x edges edge_attr
  { out := (List.range x.length).map (outRow ex P x edges edge_attr training amask)
    attn := match retAttn with
      | some _ => some (edges, al)
      | none => none
    alphaState := none }

/-!  ### Raw-tensor entry point of `gat.forward`

The Python entry point receives raw tensors.  `gat.forward` itself asserts
`x.dim() == 2` (\"Static graphs not supported\"), and the
`MessagePassing.propagate` machinery it calls checks that a dense
`edge_index` tensor has two dimensions with `edge_index.size(0) == 2`.
A failed check aborts the call with no partial result.  -/

/-- A raw tensor: its shape and row-major flattened data. -/
structure Raw (α : Type) where
  shape : List Nat
  data : List α

/-- Reassemble a `[n, m]`-shaped flat list into its rows. -/
def reshapeRows (n m : Nat) (l : List K) : List (List K) := chunkHeads n m l

/-- Decode a `[2, E]` edge-index tensor into (source, target) pairs: the first
`E` entries are the sources, the next `E` the targets. -/
def decodeEdges (E : Nat) (l : List Nat) : List (Nat × Nat) :=
  (l.take E).zip ((l.drop E).take E)

/-- Embedding of `gat.forward` on raw tensors: abort when the node-feature tensor is not
rank 2 or the edge-index tensor does not have shape `[2, E]`; otherwise run
the pipeline. -/
def gatForwardChecked (ex : K → K) (P : GatParams K) (xr : Raw K)
    (eir : Raw Nat) (ear : Raw K) (training : Bool) (amask : List (List Bool))
    (retAttn : Option Bool) (alpha0 : Option (List (List K))) :
    Except String (GatResult K) :=
  if xr.shape.length = 2 then
    if eir.shape.length = 2 ∧ eir.shape.getD 0 0 = 2 then
      .ok (gatForwardS ex P
        (reshapeRows (xr.shape.getD 0 0) (xr.shape.getD 1 0) xr.data)
        (decodeEdges (eir.shape.getD 1 0) eir.data)
        (reshapeRows (ear.shape.getD 0 0) (ear.shape.getD 1 0) ear.data)
        training amask retAttn alpha0)
    else .error "edge_index must have shape [2, E]"
  else .error "Static graphs not supported in GATConv"

/-!  ### The `gat_seq` layer-stack driver  -/

/-- Learned state of one `torch.nn.BatchNorm1d(out_channels)` module. -/
structure BNParams (K : Type) where
  gamma : List K
  beta : List K
  eps : K

/-- Embedding of `torch.nn.BatchNorm1d` in training mode: per channel, subtract the batch
mean, divide by the square root (`sq`) of the biased batch variance plus
`eps`, then apply the affine parameters. -/
def batchNorm1d (sq : K → K) (bn : BNParams K) (xs : List (List K)) :
    List (List K) :=
  let n : K := (xs.length : K)
  let mu : Nat → K := fun c => (xs.map (fun r => r.getD c 0)).sum / n
  let va : Nat → K := fun c =>
    (xs.map (fun r => (r.getD c 0 - mu c) ^ 2)).sum / n
  xs.map (fun r => (List.range r.length).map (fun c =>
    bn.gamma.getD c 1 * ((r.getD c 0 - mu c) / sq (va c + bn.eps))
      + bn.beta.getD c 0))

/-- Embedding of `F.relu` on a matrix. -/
def reluM (xs : List (List K)) : List (List K) :=
  xs.map (List.map (fun v => max v 0))

/-- Embedding of `F.dropout` on a matrix, with an explicit keep-mask. -/
def dropoutMat (training : Bool) (pr : K) (mask : List (List Bool))
    (xs : List (List K)) : List (List K) :=
  (List.range xs.length).map (fun i =>
    (List.range (xs.getD i []).length).map (fun c =>
      dropAt training pr mask i c (lgAt xs i c)))

/-- Embedding of `x_cat = torch.cat((h, repeated_ins_node), dim=-1)` where
`repeated_ins_node = ins[batch]`: node `n` gets the instruction vector of its
graph instance `batch[n]` appended to its hidden state. -/
def xCat (h : List (List K)) (ins : List (List K)) (batch : List Nat) :
    List (List K) :=
  (List.range h.length).map (fun n =>
    (h.getD n []) ++ ins.getD (batch.getD n 0) [])

/-- Embedding of `edge_cat = torch.cat((edge_attr, repeated_ins_edge), dim=-1)` where
`repeated_ins_edge = ins[batch[edge_index[0]]]`: edge `p` gets the
instruction vector of its source endpoint's graph instance appended to its
edge feature vector. -/
def edgeCat (edge_attr : List (List K)) (ins : List (List K))
    (batch : List Nat) (edges : List (Nat × Nat)) : List (List K) :=
  (List.range edges.length).map (fun p =>
    (edge_attr.getD p []) ++ ins.getD (batch.getD (srcAt edges p) 0) [])

/-- One conv's contribution inside the `gat_seq` loop: run the `gat` layer
on the instruction-concatenated node and edge features (bare output,
`return_attention_weights` left at `None`) and add the skip connection
`conv_res + h`. -/
def gatSeqLayer (ex : K → K) (training : Bool) (conv : GatParams K)
    (amask : List (List Bool)) (edges : List (Nat × Nat))
    (edge_attr : List (List K)) (batch : List Nat) (ins : List (List K))
    (h : List (List K)) : List (List K) :=
  addM (gatForwardS ex conv (xCat h ins batch) edges
    (edgeCat edge_attr ins batch edges) training amask none none).out h

/-- The `for i in range(num_conv_layers)` loop of `gat_seq.forward`.
`amask i` / `hmask i` are layer `i`'s dropout keep-masks (attention dropout
inside the conv, and the inter-layer feature dropout).  After every layer but
the last, the residual sum passes through batch normalization, ReLU and
dropout, in that order; the last layer's residual sum is returned as is.
(When the `bns` or instruction lists are shorter than the conv list the
Python loop would abort with an index error; those dead branches return the
running hidden state.) -/
def gatSeqGo (ex sq : K → K) (training : Bool) (amask hmask : Nat → List (List Bool))
    (pdrop : K) (edges : List (Nat × Nat)) (edge_attr : List (List K))
    (batch : List Nat) :
    Nat → List (GatParams K) → List (BNParams K) → List (List (List K)) →
    List (List K) → List (List K)
  | _, [], _, _, h => h
  | _, _ :: _, _, [], h => h
  | i, conv :: convs, bns, ins :: inss, h =>
    let h' := gatSeqLayer ex training conv (amask i) edges edge_attr batch ins h
    match convs, bns with
    | [], _ => h'
    | _ :: _, [] => h'
    | c2 :: cs, bn :: bns' =>
      gatSeqGo ex sq training amask hmask pdrop edges edge_attr batch (i + 1)
        (c2 :: cs) bns' inss
        (dropoutMat training pdrop (hmask i) (reluM (batchNorm1d sq bn h')))

/-- Learned state of a `gat_seq` module: `num_ins` convs and `num_ins - 1`
batch-norm modules. -/
structure GatSeqParams (K : Type) where
  convs : List (GatParams K)
  bns : List (BNParams K)
  dropout : K

/-- Embedding of `gat_seq.forward`. -/
def gatSeqForward (ex sq : K → K) (training : Bool)
    (amask hmask : Nat → List (List Bool)) (P : GatSeqParams K)
    (x : List (List K)) (edges : List (Nat × Nat))
    (edge_attr : List (List K)) (instr_vectors : List (List (List K)))
    (batch : List Nat) : List (List K) :=
  gatSeqGo ex sq training amask hmask P.dropout edges edge_attr batch 0
    P.convs P.bns instr_vectors x

/-!  ### The `optimistic_restore` checkpoint helper  -/

/-- A named tensor of a state dict: its size (shape) and its data.  `copy_`
requires equal sizes and replaces the data in place. -/
structure TParam (K : Type) where
  size : List Nat
  data : List K
deriving DecidableEq

/-- The renaming loop over `names_map` (`name_.replace(name_old, name_new)`
for every pair, in order); skipped when `names_map is None`. -/
def applyNamesMap (nm : Option (List (String × String))) (s : String) : String :=
  match nm with
  | none => s
  | some l => l.foldl (fun acc pr => acc.replace pr.1 pr.2) s

/-- Lookup in an ordered state dict (`name in own_state` / `own_state[name]`). -/
def aFind (l : List (String × TParam K)) (k : String) : Option (TParam K) :=
  (l.find? (fun pr => pr.1 == k)).map Prod.snd

/-- Embedding of `own_state[name].copy_(param)`: replace the data of the entry named `k`,
keeping its (equal) size. -/
def aUpdate (l : List (String × TParam K)) (k : String) (d : List K) :
    List (String × TParam K) :=
  l.map (fun pr => if pr.1 == k then (pr.1, ⟨pr.2.size, d⟩) else pr)

/-- Loop state of `optimistic_restore`: the (mutated) network state dict, the
`mismatch` and `only_detector` flags, and the accumulated
`state_dict_keys_new`. -/
structure RestoreState (K : Type) where
  own : List (String × TParam K)
  mismatch : Bool
  onlyDet : Bool
  keysNew : List String

/-- One iteration of the `for name_, param in state_dict.items()` loop of
`optimistic_restore`: rename the key, record it, try the `'detector.' +`
prefixed key when the plain key is absent (setting `only_detector`; a plain
resolution directly after a detector-prefixed one flags `mismatch`), then
copy on size match and flag `mismatch` on a missing key or size mismatch. -/
def restoreStep (nm : Option (List (String × String))) (st : RestoreState K)
    (entry : String × TParam K) : RestoreState K :=
  let name0 := applyNamesMap nm entry.1
  let keysNew := st.keysNew ++ [name0]
  let name2 := "detector." ++ name0
  let hit2 := (aFind st.own name2).isSome && !(aFind st.own name0).isSome
  let name := if hit2 then name2 else name0
  let onlyDet := hit2
  let mism1 := if hit2 then st.mismatch else st.mismatch || st.onlyDet
  match aFind st.own name with
  | none => ⟨st.own, true, onlyDet, keysNew⟩
  | some t =>
    if entry.2.size = t.size then
      ⟨aUpdate st.own name entry.2.data, mism1, onlyDet, keysNew⟩
    else
      ⟨st.own, true, onlyDet, keysNew⟩

/-- Embedding of `optimistic_restore(network, state_dict, names_map)`: fold the restore
loop over the supplied state dict, then — unless the last key resolved via
the detector prefix — flag any network key never mentioned by the (renamed)
supplied keys, and return the final network state dict together with
`not mismatch`. -/
def optimisticRestore (own sd : List (String × TParam K))
    (nm : Option (List (String × String))) :
    List (String × TParam K) × Bool :=
  let st := sd.foldl (restoreStep nm) ⟨own, false, false, []⟩
  let mismatch :=
    if st.onlyDet then st.mismatch
    else if (own.map Prod.fst).any (fun k => !(st.keysNew.contains k)) then
      true
    else st.mismatch
  (st.own, !mismatch)

/-- Size-mismatch test for one supplied entry against the (unchanged) lookup
result in the network state dict; used to state what the `mismatch` flag of
`optimistic_restore` accumulates. -/
def sizeFailB {K' : Type} (o : Option (TParam K')) (sz : List Nat) : Bool :=
  match o with
  | some t => !(decide (sz = t.size))
  | none => true

/-!  ### Concrete instances used by witnesses and counterexamples  -/

/-- Placeholder exponential for concrete evaluations: constantly `1`
(strictly positive, as the real exponential is). -/
def exOne : ℚ → ℚ := fun _ => 1

/-- Concrete `gat` parameters for the spec's scenario: `heads=2`,
`out_channels=5`, `concat=False`, self-loops enabled, `F_in=4`, `F_edge=3`. -/
def P1 : GatParams ℚ :=
  { heads := 2
    out_channels := 5
    negative_slope := 1 / 5
    dropout := 0
    add_self_loops := true
    concat := false
    lin_l := List.replicate 10 (List.replicate 4 1)
    lin_r := List.replicate 10 (List.replicate 4 1)
    lin_e := List.replicate 10 (List.replicate 3 1)
    att_l := List.replicate 2 (List.replicate 5 1)
    att_r := List.replicate 2 (List.replicate 5 1)
    att_e := List.replicate 2 (List.replicate 5 1)
    bias := some (List.replicate 5 0) }

/-- Concrete node features: `N=3` nodes, `F_in=4`. -/
def x1 : List (List ℚ) := List.replicate 3 (List.replicate 4 1)

/-- Concrete edge list of the spec's scenario: two edges `0→1` and `1→2`. -/
def e1 : List (Nat × Nat) := [(0, 1), (1, 2)]

/-- Concrete edge features: `E=2`, `F_edge=3`. -/
def ea1 : List (List ℚ) := List.replicate 2 (List.replicate 3 1)

/-- Node features of a small `gat_seq` broadcast example: 5 nodes, 1 channel. -/
def hB : List (List ℚ) := [[1], [2], [3], [4], [5]]

/-- Instruction vectors for 2 graph instances. -/
def insB : List (List ℚ) := [[10], [20]]

/-- Batch assignment of the spec's broadcast example. -/
def batchB : List Nat := [0, 0, 1, 1, 1]

/-- One edge from node 0 (graph instance 0) to node 3 (graph instance 1). -/
def edgesB : List (Nat × Nat) := [(0, 3)]

/-- Edge features of the broadcast example. -/
def eaB : List (List ℚ) := [[7]]

/-- Rank-1 node feature tensor (invalid: `x.dim() == 2` fails). -/
def xBad : Raw ℚ := ⟨[4], [1, 2, 3, 4]⟩

/-- Valid rank-2 node feature tensor, shape `[3, 4]`. -/
def xGood : Raw ℚ := ⟨[3, 4], List.replicate 12 1⟩

/-- Edge-index tensor of shape `[3, 2]` (invalid: first dimension must be 2). -/
def eiBad : Raw Nat := ⟨[3, 2], [0, 1, 2, 0, 1, 2]⟩

/-- Valid edge-index tensor of shape `[2, 2]` holding edges `0→1`, `1→2`. -/
def eiGood : Raw Nat := ⟨[2, 2], [0, 1, 1, 2]⟩

/-- Edge-feature tensor of shape `[2, 3]`. -/
def eaGood : Raw ℚ := ⟨[2, 3], List.replicate 6 1⟩

/-- Network state dict with a single detector-prefixed parameter. -/
def ownD : List (String × TParam ℚ) := [("detector.a", ⟨[1], [5]⟩)]

/-- Supplied checkpoint whose key `a` is absent from the network but whose
detector-prefixed form is present. -/
def sdD : List (String × TParam ℚ) := [("a", ⟨[1], [7]⟩)]

/-- Network state dict for the all-keys-present restore example. -/
def ownW : List (String × TParam ℚ) := [("a", ⟨[1], [5]⟩), ("b", ⟨[2], [1, 2]⟩)]

/-- Supplied checkpoint matching every key of `ownW` with equal sizes. -/
def sdW : List (String × TParam ℚ) := [("a", ⟨[1], [9]⟩), ("b", ⟨[2], [3, 4]⟩)]

/-!  ### Generic list lemmas  -/

lemma getD_range_map {α : Type} (f : Nat → α) (n p : Nat) (d : α) (h : p < n) :
    ((List.range n).map f).getD p d = f p := by
  simp [List.getD_eq_getElem?_getD, List.getElem?_map, List.getElem?_range h]

lemma getD_map {α β : Type} (f : α → β) (l : List α) (i : Nat) (d : β) (d' : α)
    (h : i < l.length) : (l.map f).getD i d = f (l.getD i d') := by
  simp [List.getD_eq_getElem?_getD, List.getElem?_map,
    List.getElem?_eq_getElem h]

lemma zipWith_getD {α β γ : Type} (f : α → β → γ) (a : List α) (b : List β)
    (i : Nat) (d : γ) (da : α) (db : β) (ha : i < a.length) (hb : i < b.length) :
    (List.zipWith f a b).getD i d = f (a.getD i da) (b.getD i db) := by
  simp [List.getD_eq_getElem?_getD, List.getElem?_zipWith,
    List.getElem?_eq_getElem ha, List.getElem?_eq_getElem hb]

lemma addV_length (a b : List K) : (addV a b).length = min a.length b.length := by
  simp [addV]

lemma addV_getD (a b : List K) (i : Nat) (ha : i < a.length) (hb : i < b.length) :
    (addV a b).getD i 0 = a.getD i 0 + b.getD i 0 :=
  zipWith_getD _ a b i 0 0 0 ha hb

lemma chunkHeads_length {α : Type} (H c : Nat) (l : List α) :
    (chunkHeads H c l).length = H := by
  induction H generalizing l with
  | zero => rfl
  | succ n ih => simp [chunkHeads, ih]

lemma chunkHeads_mem_length {α : Type} (H c : Nat) (l : List α)
    (hl : l.length = H * c) : ∀ ch ∈ chunkHeads H c l, ch.length = c := by
  induction H generalizing l with
  | zero => simp [chunkHeads]
  | succ n ih =>
    intro ch hch
    simp only [chunkHeads, List.mem_cons] at hch
    rcases hch with h | h
    · subst h
      have : c ≤ l.length := by
        rw [hl, Nat.succ_mul]; exact Nat.le_add_left c (n * c)
      simp [List.length_take, Nat.min_eq_left this]
    · exact ih (l.drop c) (by simp [hl, Nat.succ_mul]) ch h

lemma vsum_length (c : Nat) (l : List (List K)) (hl : ∀ v ∈ l, v.length = c) :
    (vsum c l).length = c := by
  induction l with
  | nil => simp [vsum]
  | cons v t ih =>
    have hvl : v.length = c := hl v (List.mem_cons_self v t)
    have ht : (vsum c t).length = c := ih (fun w hw => hl w (List.mem_cons_of_mem v hw))
    simp only [vsum, List.foldr_cons] at *
    rw [addV_length, hvl, ht, Nat.min_self]

lemma flatten_length_of_uniform {α : Type} (l : List (List α)) (c : Nat)
    (hl : ∀ v ∈ l, v.length = c) : l.flatten.length = l.length * c := by
  induction l with
  | nil => simp
  | cons v t ih =>
    have hvl : v.length = c := hl v (List.mem_cons_self v t)
    have ht := ih (fun w hw => hl w (List.mem_cons_of_mem v hw))
    simp [hvl, ht, Nat.succ_mul, Nat.add_comm]

/-!  ### Shape lemmas about the `gat` pipeline  -/

lemma rawLogits_length (P : GatParams K) (x : List (List K))
    (edges : List (Nat × Nat)) (edge_attr : List (List K)) :
    (rawLogits P x edges edge_attr).length = edges.length := by
  simp [rawLogits]

lemma logits_length (P : GatParams K) (x : List (List K))
    (edges : List (Nat × Nat)) (edge_attr : List (List K)) :
    (logits P x edges edge_attr).length = edges.length := by
  simp [logits, rawLogits_length]

lemma softmaxAlpha_length (ex : K → K) (edges : List (Nat × Nat))
    (lg : List (List K)) (H : Nat) :
    (softmaxAlpha ex edges lg H).length = lg.length := by
  simp [softmaxAlpha]

lemma gatAlpha_length (ex : K → K) (P : GatParams K) (x : List (List K))
    (edges : List (Nat × Nat)) (edge_attr : List (List K)) :
    (gatAlpha ex P x edges edge_attr).length = edges.length := by
  simp [gatAlpha, softmaxAlpha_length, logits_length]

lemma softmaxAlpha_row (ex : K → K) (edges : List (Nat × Nat))
    (lg : List (List K)) (H : Nat) (p : Nat) (hp : p < lg.length) :
    (softmaxAlpha ex edges lg H).getD p [] =
      (List.range H).map (fun h =>
        ex (lgAt lg p h) / smDenom ex edges lg (tgtAt edges p) h) := by
  unfold softmaxAlpha
  exact getD_range_map _ lg.length p [] hp

lemma softmaxAlpha_at (ex : K → K) (edges : List (Nat × Nat))
    (lg : List (List K)) (H : Nat) (p h : Nat) (hp : p < lg.length)
    (hh : h < H) :
    lgAt (softmaxAlpha ex edges lg H) p h =
      ex (lgAt lg p h) / smDenom ex edges lg (tgtAt edges p) h := by
  unfold lgAt
  rw [softmaxAlpha_row ex edges lg H p hp, getD_range_map _ H h 0 hh]
  rfl

/-!  ### Softmax normalization lemmas  -/

lemma softmaxAlpha_nonneg (ex : K → K) (hex : ∀ y, 0 < ex y)
    (edges : List (Nat × Nat)) (lg : List (List K)) (H : Nat) :
    ∀ row ∈ softmaxAlpha ex edges lg H, ∀ v ∈ row, 0 ≤ v := by
  intro row hrow v hv
  unfold softmaxAlpha at hrow
  obtain ⟨p, hp, rfl⟩ := List.mem_map.1 hrow
  obtain ⟨h, hh, rfl⟩ := List.mem_map.1 hv
  apply div_nonneg (le_of_lt (hex _))
  apply List.sum_nonneg
  intro a ha
  obtain ⟨q, hq, rfl⟩ := List.mem_map.1 ha
  exact le_of_lt (hex _)

lemma softmaxAlpha_group_sum (ex : K → K) (hex : ∀ y, 0 < ex y)
    (edges : List (Nat × Nat)) (lg : List (List K)) (H : Nat) (j h : Nat)
    (hh : h < H) (hlen : lg.length = edges.length)
    (hj : ∃ p, p < edges.length ∧ tgtAt edges p = j) :
    (((List.range edges.length).filter (fun p => tgtAt edges p == j)).map
      (fun p => lgAt (softmaxAlpha ex edges lg H) p h)).sum = 1 := by
  have hmem : ∀ p ∈ (List.range edges.length).filter
      (fun p => tgtAt edges p == j), p < edges.length ∧ tgtAt edges p = j := by
    intro p hp
    have hp' := List.mem_filter.1 hp
    exact ⟨List.mem_range.1 hp'.1, by simpa using hp'.2⟩
  have hmap : ((List.range edges.length).filter (fun p => tgtAt edges p == j)).map
        (fun p => lgAt (softmaxAlpha ex edges lg H) p h)
      = ((List.range edges.length).filter (fun p => tgtAt edges p == j)).map
        (fun p => ex (lgAt lg p h) * (smDenom ex edges lg j h)⁻¹) := by
    apply List.map_congr_left
    intro p hp
    obtain ⟨hplen, htg⟩ := hmem p hp
    rw [softmaxAlpha_at ex edges lg H p h (by omega) hh, htg, div_eq_mul_inv]
  have hSval : smDenom ex edges lg j h
      = (((List.range edges.length).filter (fun p => tgtAt edges p == j)).map
          (fun q => ex (lgAt lg q h))).sum := by
    unfold smDenom
    rw [hlen]
  have hpos : 0 < smDenom ex edges lg j h := by
    rw [hSval]
    apply List.sum_pos
    · intro a ha
      obtain ⟨q, hq, rfl⟩ := List.mem_map.1 ha
      exact hex _
    · obtain ⟨p0, hp0, ht0⟩ := hj
      have hp0m : p0 ∈ (List.range edges.length).filter
          (fun p => tgtAt edges p == j) :=
        List.mem_filter.2 ⟨List.mem_range.2 hp0, by simpa using ht0⟩
      exact List.ne_nil_of_mem (List.mem_map_of_mem _ hp0m)
  rw [hmap, List.sum_map_mul_right, ← hSval, mul_inv_cancel₀ (ne_of_gt hpos)]

/-!  ### Per-edge logit lemmas  -/

lemma alpha_row_at (att : List (List K)) (mm : List (List (List K))) (s h : Nat)
    (hs : s < mm.length) (hh1 : h < att.length)
    (hh2 : h < (mm.getD s []).length) :
    (mrow (mm.map (alphaVec att)) s).getD h 0
      = dotL (att.getD h []) (hrow mm s h) := by
  unfold mrow hrow
  rw [getD_map _ mm s [] [] hs]
  unfold alphaVec
  exact zipWith_getD dotL att _ h 0 [] [] hh1 hh2

lemma alpha_row_length (att : List (List K)) (mm : List (List (List K)))
    (s : Nat) (hs : s < mm.length) :
    (mrow (mm.map (alphaVec att)) s).length
      = min att.length (mm.getD s []).length := by
  unfold mrow
  rw [getD_map _ mm s [] [] hs]
  unfold alphaVec
  exact List.length_zipWith dotL att (mm.getD s [])

lemma projMap_row_length (P : GatParams K) (W : List (List K))
    (m : List (List K)) (s : Nat) (hs : s < m.length) :
    ((m.map (projHeads P W)).getD s []).length = P.heads := by
  rw [getD_map _ m s [] [] hs]
  unfold projHeads
  exact chunkHeads_length _ _ _

lemma alphaL_row_length (P : GatParams K) (x : List (List K)) (s : Nat)
    (hs : s < x.length) (hal : P.att_l.length = P.heads) :
    (mrow (alphaL P x) s).length = P.heads := by
  unfold alphaL
  rw [alpha_row_length P.att_l (xlMat P x) s (by simpa [xlMat] using hs)]
  unfold xlMat
  rw [projMap_row_length P P.lin_l x s hs, hal, Nat.min_self]

lemma alphaR_row_length (P : GatParams K) (x : List (List K)) (s : Nat)
    (hs : s < x.length) (har : P.att_r.length = P.heads) :
    (mrow (alphaR P x) s).length = P.heads := by
  unfold alphaR
  rw [alpha_row_length P.att_r (xrMat P x) s (by simpa [xrMat] using hs)]
  unfold xrMat
  rw [projMap_row_length P P.lin_r x s hs, har, Nat.min_self]

lemma alphaE_row_length (P : GatParams K) (ea : List (List K)) (p : Nat)
    (hpe : p < ea.length) (hae : P.att_e.length = P.heads) :
    (mrow (alphaE P ea) p).length = P.heads := by
  unfold alphaE
  rw [alpha_row_length P.att_e (eMat P ea) p (by simpa [eMat] using hpe)]
  unfold eMat
  rw [projMap_row_length P P.lin_e ea p hpe, hae, Nat.min_self]

lemma rawLogits_row (P : GatParams K) (x : List (List K))
    (edges : List (Nat × Nat)) (ea : List (List K)) (p : Nat)
    (hp : p < edges.length) :
    (rawLogits P x edges ea).getD p []
      = addV (addV (mrow (alphaL P x) (srcAt edges p))
          (mrow (alphaR P x) (tgtAt edges p))) (mrow (alphaE P ea) p) := by
  unfold rawLogits
  exact getD_range_map _ _ p [] hp

lemma rawLogits_row_length (P : GatParams K) (x : List (List K))
    (edges : List (Nat × Nat)) (ea : List (List K)) (p : Nat)
    (hp : p < edges.length) (hpe : p < ea.length)
    (hs : srcAt edges p < x.length) (ht : tgtAt edges p < x.length)
    (hal : P.att_l.length = P.heads) (har : P.att_r.length = P.heads)
    (hae : P.att_e.length = P.heads) :
    ((rawLogits P x edges ea).getD p []).length = P.heads := by
  rw [rawLogits_row P x edges ea p hp, addV_length, addV_length,
    alphaL_row_length P x _ hs hal, alphaR_row_length P x _ ht har,
    alphaE_row_length P ea p hpe hae, Nat.min_self, Nat.min_self]

lemma getD_mem {α : Type} (l : List α) (i : Nat) (d : α) (h : i < l.length) :
    l.getD i d ∈ l := by
  rw [List.getD_eq_getElem?_getD, List.getElem?_eq_getElem h]
  exact List.getElem_mem h

lemma addBias_length (b : Option (List K)) (row : List K)
    (hb : ∀ bv, b = some bv → bv.length = row.length) :
    (addBias b row).length = row.length := by
  cases b with
  | none => rfl
  | some bv => simp [addBias, addV_length, hb bv rfl]

/-!  ### Claim theorems  -/

/-- C2: for every valid input to the attention operator (an exponential is
strictly positive), the normalized attention weights are non-negative, and
for every target node `j` with at least one incoming edge and every head
`h`, the weights over `j`'s incoming-edge set sum to 1; the weights are the
softmax of the leaky-ReLU logits grouped by target node and head. -/
theorem gat_attention_row_stochastic (ex : K → K) (hex : ∀ y, 0 < ex y)
    (P : GatParams K) (x : List (List K)) (edges : List (Nat × Nat))
    (edge_attr : List (List K)) (j h : Nat) (hh : h < P.heads)
    (hj : ∃ p, p < edges.length ∧ tgtAt edges p = j) :
    (∀ row ∈ gatAlpha ex P x edges edge_attr, ∀ v ∈ row, 0 ≤ v) ∧
    (((List.range edges.length).filter (fun p => tgtAt edges p == j)).map
      (fun p => lgAt (gatAlpha ex P x edges edge_attr) p h)).sum = 1 := by
  unfold gatAlpha
  exact ⟨softmaxAlpha_nonneg ex hex edges _ P.heads,
    softmaxAlpha_group_sum ex hex edges _ P.heads j h hh
      (logits_length P x edges edge_attr) hj⟩

/-- Witness for C2 at the spec's concrete scenario, target node 1, head 0. -/
theorem gat_attention_row_stochastic_witness :
    (0 < P1.heads ∧ (∃ p, p < e1.length ∧ tgtAt e1 p = 1)) ∧
    ((∀ row ∈ gatAlpha exOne P1 x1 e1 ea1, ∀ v ∈ row, (0 : ℚ) ≤ v) ∧
     (((List.range e1.length).filter (fun p => tgtAt e1 p == 1)).map
       (fun p => lgAt (gatAlpha exOne P1 x1 e1 ea1) p 0)).sum = 1) :=
  ⟨⟨by decide, ⟨0, by decide⟩⟩,
   gat_attention_row_stochastic exOne (fun _ => one_pos) P1 x1 e1 ea1 1 0
     (by decide) ⟨0, by decide⟩⟩

/-- C5: in the layer-stack driver, every layer adds the attention operator's
output to the pre-layer hidden state; after every layer except the last the
residual sum passes through batch normalization, then ReLU, then dropout,
in that order; the last layer's residual sum is returned with no
post-processing. -/
theorem gat_seq_layer_order (ex sq : K → K) (training : Bool)
    (amask hmask : Nat → List (List Bool)) (pdrop : K)
    (edges : List (Nat × Nat)) (edge_attr : List (List K)) (batch : List Nat) :
    (∀ (i : Nat) (conv : GatParams K) (bns : List (BNParams K))
        (ins : List (List K)) (h : List (List K)),
        gatSeqGo ex sq training amask hmask pdrop edges edge_attr batch i
            [conv] bns [ins] h
          = addM (gatForwardS ex conv (xCat h ins batch) edges
              (edgeCat edge_attr ins batch edges) training (amask i) none
              none).out h)
    ∧ (∀ (i : Nat) (conv c2 : GatParams K) (cs : List (GatParams K))
        (bn : BNParams K) (bns : List (BNParams K)) (ins : List (List K))
        (inss : List (List (List K))) (h : List (List K)),
        gatSeqGo ex sq training amask hmask pdrop edges edge_attr batch i
            (conv :: c2 :: cs) (bn :: bns) (ins :: inss) h
          = gatSeqGo ex sq training amask hmask pdrop edges edge_attr batch
              (i + 1) (c2 :: cs) bns inss
              (dropoutMat training pdrop (hmask i)
                (reluM (batchNorm1d sq bn
                  (addM (gatForwardS ex conv (xCat h ins batch) edges
                    (edgeCat edge_attr ins batch edges) training (amask i)
                    none none).out h)))))
    ∧ (∀ (P : GatSeqParams K) (x : List (List K))
        (instr : List (List (List K))),
        gatSeqForward ex sq training amask hmask P x edges edge_attr instr
            batch
          = gatSeqGo ex sq training amask hmask P.dropout edges edge_attr
              batch 0 P.convs P.bns instr x) := by
  refine ⟨fun i conv bns ins h => ?_, fun i conv c2 cs bn bns ins inss h => ?_,
    fun P x instr => rfl⟩
  · rfl
  · rfl

/-- C6: node `n` receives the instruction vector of graph instance
`batch[n]` concatenated onto its hidden state, and edge `p` receives the
instruction vector of `batch[source(p)]` concatenated onto its edge
feature vector. -/
theorem gat_seq_instruction_broadcast (h ins : List (List K))
    (batch : List Nat) (edge_attr : List (List K)) (edges : List (Nat × Nat))
    (n p : Nat) (hn : n < h.length) (hp : p < edges.length) :
    (xCat h ins batch).getD n [] = h.getD n [] ++ ins.getD (batch.getD n 0) []
    ∧ (edgeCat edge_attr ins batch edges).getD p []
        = edge_attr.getD p [] ++ ins.getD (batch.getD (srcAt edges p) 0) [] := by
  constructor
  · unfold xCat
    exact getD_range_map _ _ n [] hn
  · unfold edgeCat
    exact getD_range_map _ _ p [] hp

/-- Witness for C6 at the spec's example: batch assignment `[0,0,1,1,1]`
with two instruction vectors; node 0 gets instruction 0, node 4 gets
instruction 1, and the edge `0→3` gets its source's instruction 0. -/
theorem gat_seq_instruction_broadcast_witness :
    (xCat hB insB batchB).getD 0 [] = [(1 : ℚ), 10]
    ∧ (xCat hB insB batchB).getD 4 [] = [(5 : ℚ), 20]
    ∧ (edgeCat eaB insB batchB edgesB).getD 0 [] = [(7 : ℚ), 10] :=
  ⟨((gat_seq_instruction_broadcast hB insB batchB eaB edgesB 0 0 (by decide)
      (by decide)).1).trans (by decide),
   ((gat_seq_instruction_broadcast hB insB batchB eaB edgesB 4 0 (by decide)
      (by decide)).1).trans (by decide),
   ((gat_seq_instruction_broadcast hB insB batchB eaB edgesB 0 0 (by decide)
      (by decide)).2).trans (by decide)⟩

/-- C7: the raw-tensor entry point of the attention operator aborts with an
error (no partial result) whenever the node feature tensor is not rank 2,
and whenever the edge-index tensor does not have shape `[2, E]`. -/
theorem gat_forward_checked_shape_errors (ex : K → K) (P : GatParams K)
    (xr : Raw K) (eir : Raw Nat) (ear : Raw K) (training : Bool)
    (amask : List (List Bool)) (retAttn : Option Bool)
    (alpha0 : Option (List (List K))) :
    (xr.shape.length ≠ 2 →
      gatForwardChecked ex P xr eir ear training amask retAttn alpha0
        = Except.error "Static graphs not supported in GATConv")
    ∧ (¬(eir.shape.length = 2 ∧ eir.shape.getD 0 0 = 2) →
      ∃ msg, gatForwardChecked ex P xr eir ear training amask retAttn alpha0
        = Except.error msg) := by
  constructor
  · intro hx
    unfold gatForwardChecked
    rw [if_neg hx]
  · intro he
    unfold gatForwardChecked
    by_cases hx : xr.shape.length = 2
    · rw [if_pos hx, if_neg he]
      exact ⟨_, rfl⟩
    · rw [if_neg hx]
      exact ⟨_, rfl⟩

/-- Witness for C7: a rank-1 node tensor aborts, and a `[3, 2]`-shaped
edge-index tensor aborts. -/
theorem gat_forward_checked_shape_errors_witness :
    (xBad.shape.length ≠ 2
      ∧ ¬(eiBad.shape.length = 2 ∧ eiBad.shape.getD 0 0 = 2))
    ∧ gatForwardChecked exOne P1 xBad eiGood eaGood false [] none none
        = Except.error "Static graphs not supported in GATConv"
    ∧ ∃ msg, gatForwardChecked exOne P1 xGood eiBad eaGood false [] none none
        = Except.error msg :=
  ⟨⟨by decide, by decide⟩,
   (gat_forward_checked_shape_errors exOne P1 xBad eiGood eaGood false []
      none none).1 (by decide),
   (gat_forward_checked_shape_errors exOne P1 xGood eiBad eaGood false []
      none none).2 (by decide)⟩

/-- C8: after every forward pass the transient attention cache is `None`
(whatever it held before and whether or not weights were requested); when
weights are requested the call additionally returns the input edge list
paired with a per-edge, per-head weight tensor of shape `[E, heads]` over
the edges actually used. -/
theorem gat_alpha_cleared_and_attn_shape (ex : K → K) (P : GatParams K)
    (x : List (List K)) (edges : List (Nat × Nat)) (edge_attr : List (List K))
    (training : Bool) (amask : List (List Bool)) (retAttn : Option Bool)
    (alpha0 : Option (List (List K))) :
    (gatForwardS ex P x edges edge_attr training amask retAttn
        alpha0).alphaState = none
    ∧ (∀ b, retAttn = some b →
        (gatForwardS ex P x edges edge_attr training amask retAttn alpha0).attn
            = some (edges, gatAlpha ex P x edges edge_attr)
          ∧ (gatAlpha ex P x edges edge_attr).length = edges.length
          ∧ ∀ row ∈ gatAlpha ex P x edges edge_attr, row.length = P.heads) := by
  refine ⟨rfl, ?_⟩
  rintro b rfl
  refine ⟨rfl, gatAlpha_length ex P x edges edge_attr, ?_⟩
  intro row hrow
  unfold gatAlpha softmaxAlpha at hrow
  obtain ⟨p, hp, rfl⟩ := List.mem_map.1 hrow
  simp

/-- Witness for C8 at the spec's concrete scenario with
`return_attention_weights=True`. -/
theorem gat_alpha_cleared_and_attn_shape_witness :
    (gatForwardS exOne P1 x1 e1 ea1 false [] (some true) none).alphaState
        = none
    ∧ ((gatForwardS exOne P1 x1 e1 ea1 false [] (some true) none).attn
          = some (e1, gatAlpha exOne P1 x1 e1 ea1)
        ∧ (gatAlpha exOne P1 x1 e1 ea1).length = e1.length
        ∧ ∀ row ∈ gatAlpha exOne P1 x1 e1 ea1, row.length = P1.heads) :=
  ⟨(gat_alpha_cleared_and_attn_shape exOne P1 x1 e1 ea1 false [] (some true)
      none).1,
   (gat_alpha_cleared_and_attn_shape exOne P1 x1 e1 ea1 false [] (some true)
      none).2 true rfl⟩

/-- C10: the `(output, (edge_index, attention_weights))` pair is returned
whenever `return_attention_weights` is a `bool` — `True` or `False` alike —
and the bare output is returned exactly when the argument is left `None`;
the output tensor itself is the same either way. -/
theorem gat_return_pair_iff_bool_arg (ex : K → K) (P : GatParams K)
    (x : List (List K)) (edges : List (Nat × Nat)) (edge_attr : List (List K))
    (training : Bool) (amask : List (List Bool))
    (alpha0 : Option (List (List K))) :
    (∀ b : Bool,
      (gatForwardS ex P x edges edge_attr training amask (some b) alpha0).attn
        = some (edges, gatAlpha ex P x edges edge_attr))
    ∧ (gatForwardS ex P x edges edge_attr training amask none alpha0).attn
        = none
    ∧ ∀ b : Bool,
      (gatForwardS ex P x edges edge_attr training amask (some b) alpha0).out
        = (gatForwardS ex P x edges edge_attr training amask none alpha0).out :=
  ⟨fun _ => rfl, rfl, fun _ => rfl⟩

/-- C3: the raw attention logit of edge `p = (s → t)` at head `h` is the sum
of three per-head dot products — the left attention vector against the
projected source feature, the right attention vector against the projected
target feature, and the edge attention vector against the projected edge
feature; a LeakyReLU with the configured negative slope is applied to this
logit before the softmax; and a homogeneous (single-integer) `in_channels`
makes source and target share one projection matrix. -/
theorem gat_logit_formula (P : GatParams K) (x : List (List K))
    (edges : List (Nat × Nat)) (edge_attr : List (List K)) (p h : Nat)
    (hp : p < edges.length) (hpe : p < edge_attr.length)
    (hs : srcAt edges p < x.length) (ht : tgtAt edges p < x.length)
    (hh : h < P.heads)
    (hal : P.att_l.length = P.heads) (har : P.att_r.length = P.heads)
    (hae : P.att_e.length = P.heads) :
    lgAt (rawLogits P x edges edge_attr) p h
      = dotL (P.att_l.getD h []) (hrow (xlMat P x) (srcAt edges p) h)
        + dotL (P.att_r.getD h []) (hrow (xrMat P x) (tgtAt edges p) h)
        + dotL (P.att_e.getD h []) (hrow (eMat P edge_attr) p h)
    ∧ lgAt (logits P x edges edge_attr) p h
        = leakyRelu P.negative_slope (lgAt (rawLogits P x edges edge_attr) p h)
    ∧ ∀ (n oc hd : Nat) (ns dr : K) (asl cc : Bool)
        (wl wr we al ar ae : List (List K)) (b : Option (List K)),
        (gatInit (Sum.inl n) oc hd ns dr asl cc wl wr we al ar ae b).lin_r
          = (gatInit (Sum.inl n) oc hd ns dr asl cc wl wr we al ar ae b).lin_l := by
  have hA : (mrow (alphaL P x) (srcAt edges p)).length = P.heads :=
    alphaL_row_length P x _ hs hal
  have hB : (mrow (alphaR P x) (tgtAt edges p)).length = P.heads :=
    alphaR_row_length P x _ ht har
  have hC : (mrow (alphaE P edge_attr) p).length = P.heads :=
    alphaE_row_length P edge_attr p hpe hae
  refine ⟨?_, ?_, fun n oc hd ns dr asl cc wl wr we al ar ae b => rfl⟩
  · unfold lgAt
    rw [rawLogits_row P x edges edge_attr p hp]
    rw [addV_getD _ _ h (by rw [addV_length, hA, hB, Nat.min_self]; exact hh)
      (hC ▸ hh)]
    rw [addV_getD _ _ h (hA ▸ hh) (hB ▸ hh)]
    unfold alphaL alphaR alphaE
    rw [alpha_row_at P.att_l (xlMat P x) _ h (by simpa [xlMat] using hs)
        (hal ▸ hh) (by rw [show (xlMat P x).getD (srcAt edges p) []
            = (x.map (projHeads P P.lin_l)).getD (srcAt edges p) [] from rfl,
          projMap_row_length P P.lin_l x _ hs]; exact hh),
      alpha_row_at P.att_r (xrMat P x) _ h (by simpa [xrMat] using ht)
        (har ▸ hh) (by rw [show (xrMat P x).getD (tgtAt edges p) []
            = (x.map (projHeads P P.lin_r)).getD (tgtAt edges p) [] from rfl,
          projMap_row_length P P.lin_r x _ ht]; exact hh),
      alpha_row_at P.att_e (eMat P edge_attr) p h
        (by simpa [eMat] using hpe)
        (hae ▸ hh) (by rw [show (eMat P edge_attr).getD p []
            = (edge_attr.map (projHeads P P.lin_e)).getD p [] from rfl,
          projMap_row_length P P.lin_e edge_attr p hpe]; exact hh)]
  · unfold lgAt logits
    rw [getD_map (List.map (leakyRelu P.negative_slope))
      (rawLogits P x edges edge_attr) p [] []
      (by rw [rawLogits_length]; exact hp)]
    rw [getD_map (leakyRelu P.negative_slope) _ h 0 0
      (by rw [rawLogits_row_length P x edges edge_attr p hp hpe hs ht hal har
        hae]; exact hh)]

/-- Witness for C3 at the spec's concrete scenario, edge 0, head 0. -/
theorem gat_logit_formula_witness :
    (0 < e1.length ∧ 0 < ea1.length ∧ srcAt e1 0 < x1.length
      ∧ tgtAt e1 0 < x1.length ∧ 0 < P1.heads
      ∧ P1.att_l.length = P1.heads ∧ P1.att_r.length = P1.heads
      ∧ P1.att_e.length = P1.heads)
    ∧ (lgAt (rawLogits P1 x1 e1 ea1) 0 0
        = dotL (P1.att_l.getD 0 []) (hrow (xlMat P1 x1) (srcAt e1 0) 0)
          + dotL (P1.att_r.getD 0 []) (hrow (xrMat P1 x1) (tgtAt e1 0) 0)
          + dotL (P1.att_e.getD 0 []) (hrow (eMat P1 ea1) 0 0)
      ∧ lgAt (logits P1 x1 e1 ea1) 0 0
          = leakyRelu P1.negative_slope (lgAt (rawLogits P1 x1 e1 ea1) 0 0)) :=
  ⟨by decide,
   ((gat_logit_formula P1 x1 e1 ea1 0 0 (by decide) (by decide) (by decide)
      (by decide) (by decide) (by decide) (by decide) (by decide)).1),
   ((gat_logit_formula P1 x1 e1 ea1 0 0 (by decide) (by decide) (by decide)
      (by decide) (by decide) (by decide) (by decide) (by decide)).2.1)⟩

/-- C4: every per-edge message is the projected source feature scaled by
that edge's post-dropout attention weight; messages are sum-aggregated into
each target node per head; and the output has `x.length` rows of width
`heads * out_channels` when `concat` is set and `out_channels`
(head-averaged) otherwise, with the bias added on top. -/
theorem gat_message_aggregate_output_shape (ex : K → K) (P : GatParams K)
    (x : List (List K)) (edges : List (Nat × Nat)) (edge_attr : List (List K))
    (training : Bool) (amask : List (List Bool)) (retAttn : Option Bool)
    (alpha0 : Option (List (List K)))
    (hW : P.lin_l.length = P.heads * P.out_channels)
    (hsrc : ∀ e ∈ edges, e.1 < x.length)
    (hbias : ∀ bv, P.bias = some bv →
      bv.length
        = if P.concat then P.heads * P.out_channels else P.out_channels) :
    (∀ p h : Nat, msgAt ex P x edges edge_attr training amask p h
        = smulV (lgAt (alphaDropped training P.dropout amask
            (gatAlpha ex P x edges edge_attr)) p h)
            (hrow (xlMat P x) (srcAt edges p) h))
    ∧ (∀ i h : Nat, aggAt ex P x edges edge_attr training amask i h
        = vsum P.out_channels
            (((List.range edges.length).filter
              (fun p => tgtAt edges p == i)).map
              (fun p => msgAt ex P x edges edge_attr training amask p h)))
    ∧ (gatForwardS ex P x edges edge_attr training amask retAttn
        alpha0).out.length = x.length
    ∧ (∀ row ∈ (gatForwardS ex P x edges edge_attr training amask retAttn
          alpha0).out,
        row.length
          = if P.concat then P.heads * P.out_channels else P.out_channels) := by
  refine ⟨fun p h => rfl, fun i h => rfl, by simp [gatForwardS], ?_⟩
  intro row hrw
  have hout : (gatForwardS ex P x edges edge_attr training amask retAttn
      alpha0).out
      = (List.range x.length).map
        (outRow ex P x edges edge_attr training amask) := rfl
  rw [hout] at hrw
  obtain ⟨i, hi, rfl⟩ := List.mem_map.1 hrw
  have hagg : ∀ v ∈ (List.range P.heads).map
      (aggAt ex P x edges edge_attr training amask i),
      v.length = P.out_channels := by
    intro v hv
    obtain ⟨h, hhm, rfl⟩ := List.mem_map.1 hv
    unfold aggAt
    apply vsum_length
    intro w hw
    obtain ⟨p, hpm, rfl⟩ := List.mem_map.1 hw
    have hpf := List.mem_filter.1 hpm
    have hplen : p < edges.length := List.mem_range.1 hpf.1
    have hsp : srcAt edges p < x.length :=
      hsrc _ (getD_mem edges p (0, 0) hplen)
    unfold msgAt smulV
    rw [List.length_map]
    unfold hrow
    have hxrow : (xlMat P x).getD (srcAt edges p) []
        = chunkHeads P.heads P.out_channels
            (matVec P.lin_l (x.getD (srcAt edges p) [])) := by
      unfold xlMat
      rw [getD_map _ x _ [] [] hsp]
      rfl
    rw [hxrow]
    apply chunkHeads_mem_length P.heads P.out_channels
      (matVec P.lin_l (x.getD (srcAt edges p) []))
      (by unfold matVec; rw [List.length_map, hW])
    apply getD_mem
    rw [chunkHeads_length]
    exact List.mem_range.1 hhm
  show (addBias P.bias (if P.concat then
      ((List.range P.heads).map
        (aggAt ex P x edges edge_attr training amask i)).flatten
    else meanHeads P ((List.range P.heads).map
        (aggAt ex P x edges edge_attr training amask i)))).length = _
  have hlenrow : (if P.concat then
      ((List.range P.heads).map
        (aggAt ex P x edges edge_attr training amask i)).flatten
    else meanHeads P ((List.range P.heads).map
        (aggAt ex P x edges edge_attr training amask i))).length
      = if P.concat then P.heads * P.out_channels else P.out_channels := by
    by_cases hc : P.concat
    · rw [if_pos hc, if_pos hc,
        flatten_length_of_uniform _ P.out_channels hagg, List.length_map,
        List.length_range]
    · rw [if_neg hc, if_neg hc]
      unfold meanHeads
      rw [List.length_map, List.length_range]
  rw [addBias_length P.bias _ (fun bv hbv => (hbias bv hbv).trans hlenrow.symm),
    hlenrow]

/-- Witness for C4 at the spec's concrete scenario: 3 output rows of width
`out_channels = 5` (the parameters use `concat=False`). -/
theorem gat_message_aggregate_output_shape_witness :
    (P1.lin_l.length = P1.heads * P1.out_channels
      ∧ (∀ e ∈ e1, e.1 < x1.length))
    ∧ (gatForwardS exOne P1 x1 e1 ea1 false [] (some true) none).out.length = 3
    ∧ (∀ row ∈ (gatForwardS exOne P1 x1 e1 ea1 false [] (some true) none).out,
        row.length
          = if P1.concat then P1.heads * P1.out_channels
            else P1.out_channels) :=
  ⟨⟨by decide, by decide⟩,
   ((gat_message_aggregate_output_shape exOne P1 x1 e1 ea1 false []
      (some true) none (by decide) (by decide)
      (fun bv hbv => by cases hbv; rfl)).2.2.1).trans (by decide),
   (gat_message_aggregate_output_shape exOne P1 x1 e1 ea1 false []
      (some true) none (by decide) (by decide)
      (fun bv hbv => by cases hbv; rfl)).2.2.2⟩

/-- C1 (evaluation at the spec's concrete scenario): with self-loops
enabled (`P1.add_self_loops = true`), `N=3` nodes and the two edges
`0→1`, `1→2`, the forward pass leaves the edge list untouched — no
self-loops are ever added — so the returned attention-weight tensor has 2
rows (one per original edge), not the 5 rows (2 edges + 3 self-loops) the
spec's scenario expects; the output shape `[3, 5]` does hold. -/
theorem gat_forward_concrete_no_self_loops :
    ((gatForwardS exOne P1 x1 e1 ea1 false [] (some true) none).attn.map
      (fun pr => pr.1)) = some [(0, 1), (1, 2)]
    ∧ ((gatForwardS exOne P1 x1 e1 ea1 false [] (some true) none).attn.map
      (fun pr => pr.2.length)) = some 2
    ∧ (gatForwardS exOne P1 x1 e1 ea1 false [] (some true) none).out.length = 3
    ∧ (∀ row ∈ (gatForwardS exOne P1 x1 e1 ea1 false [] (some true) none).out,
        row.length = 5)
    ∧ P1.add_self_loops = true := by
  decide

/-!  ### Lemmas about the `optimistic_restore` state-dict operations  -/

lemma aFind_isSome_iff (l : List (String × TParam K)) (k : String) :
    (aFind l k).isSome = true ↔ k ∈ l.map Prod.fst := by
  unfold aFind
  rw [Option.isSome_map', List.find?_isSome]
  constructor
  · rintro ⟨e, he, hek⟩
    exact (beq_iff_eq.1 hek) ▸ List.mem_map_of_mem Prod.fst he
  · intro hk
    obtain ⟨e, he, hek⟩ := List.mem_map.1 hk
    exact ⟨e, he, beq_iff_eq.2 hek⟩

lemma aUpdate_cons (e : String × TParam K) (t : List (String × TParam K))
    (k : String) (d : List K) :
    aUpdate (e :: t) k d
      = (if e.1 == k then (e.1, ⟨e.2.size, d⟩) else e) :: aUpdate t k d := rfl

lemma aFind_cons_pos (e : String × TParam K) (t : List (String × TParam K))
    (k : String) (h : (e.1 == k) = true) : aFind (e :: t) k = some e.2 := by
  unfold aFind
  rw [List.find?_cons_of_pos t h]
  rfl

lemma aFind_cons_neg (e : String × TParam K) (t : List (String × TParam K))
    (k : String) (h : ¬((e.1 == k) = true)) : aFind (e :: t) k = aFind t k := by
  unfold aFind
  rw [List.find?_cons_of_neg t h]

lemma aFind_aUpdate_self (l : List (String × TParam K)) (k : String)
    (d : List K) :
    aFind (aUpdate l k d)
        k
      = (aFind l k).map (fun t => ⟨t.size, d⟩) := by
  induction l with
  | nil => rfl
  | cons e t ih =>
    rw [aUpdate_cons]
    by_cases h : (e.1 == k) = true
    · rw [if_pos h,
        aFind_cons_pos (e.1, ⟨e.2.size, d⟩) (aUpdate t k d) k h,
        aFind_cons_pos e t k h]
      rfl
    · rw [if_neg h, aFind_cons_neg e (aUpdate t k d) k h,
        aFind_cons_neg e t k h]
      exact ih

lemma aFind_aUpdate_ne (l : List (String × TParam K)) (k k' : String)
    (d : List K) (hne : k ≠ k') :
    aFind (aUpdate l k' d) k = aFind l k := by
  induction l with
  | nil => rfl
  | cons e t ih =>
    rw [aUpdate_cons]
    by_cases h : (e.1 == k') = true
    · have he : e.1 = k' := by simpa using h
      have hpk : ¬((e.1 == k) = true) := by
        simp only [beq_iff_eq, he]
        exact fun hk => hne hk.symm
      rw [if_pos h,
        aFind_cons_neg (e.1, ⟨e.2.size, d⟩) (aUpdate t k' d) k hpk,
        aFind_cons_neg e t k hpk]
      exact ih
    · rw [if_neg h]
      by_cases h2 : (e.1 == k) = true
      · rw [aFind_cons_pos e (aUpdate t k' d) k h2, aFind_cons_pos e t k h2]
      · rw [aFind_cons_neg e (aUpdate t k' d) k h2, aFind_cons_neg e t k h2]
        exact ih

lemma aUpdate_keys (l : List (String × TParam K)) (k : String) (d : List K) :
    (aUpdate l k d).map Prod.fst = l.map Prod.fst := by
  unfold aUpdate
  rw [List.map_map]
  apply List.map_congr_left
  intro pr _
  by_cases h : pr.1 = k <;> simp [h]

lemma aFind_size_aUpdate (l : List (String × TParam K)) (k' : String)
    (d : List K) (k : String) :
    (aFind (aUpdate l k' d) k).map TParam.size
      = (aFind l k).map TParam.size := by
  by_cases h : k = k'
  · subst h
    rw [aFind_aUpdate_self]
    cases aFind l k <;> rfl
  · rw [aFind_aUpdate_ne l k k' d h]

lemma sizeFailB_congr (o1 o2 : Option (TParam K)) (sz : List Nat)
    (h : o1.map TParam.size = o2.map TParam.size) :
    sizeFailB o1 sz = sizeFailB o2 sz := by
  cases o1 with
  | none =>
    cases o2 with
    | none => rfl
    | some t => simp at h
  | some t1 =>
    cases o2 with
    | none => simp at h
    | some t2 =>
      simp only [Option.map_some'] at h
      simp only [sizeFailB, Option.some.inj h]

lemma bool_not_if_true_iff (A B : Bool) :
    (!(if A then true else B)) = true ↔ (A = false ∧ B = false) := by
  cases A <;> cases B <;> simp

lemma restoreStep_of_present (nm : Option (List (String × String)))
    (st : RestoreState K) (e : String × TParam K) (t : TParam K)
    (hd : st.onlyDet = false)
    (ht : aFind st.own (applyNamesMap nm e.1) = some t) :
    restoreStep nm st e
      = ⟨if e.2.size = t.size
          then aUpdate st.own (applyNamesMap nm e.1) e.2.data else st.own,
         st.mismatch
           || sizeFailB (aFind st.own (applyNamesMap nm e.1)) e.2.size,
         false, st.keysNew ++ [applyNamesMap nm e.1]⟩ := by
  have hsome : (aFind st.own (applyNamesMap nm e.1)).isSome = true := by
    rw [ht]
    rfl
  have hhit : ((aFind st.own ("detector." ++ applyNamesMap nm e.1)).isSome
      && !(aFind st.own (applyNamesMap nm e.1)).isSome) = false := by
    rw [hsome]
    simp
  unfold restoreStep
  simp only [hhit, Bool.false_eq_true, if_false, hd, Bool.or_false, ht]
  by_cases hsz : e.2.size = t.size
  · simp [hsz, sizeFailB, ht]
  · simp [hsz, sizeFailB, ht]

lemma restore_foldl_char (nm : Option (List (String × String)))
    (sd : List (String × TParam K)) :
    ∀ st : RestoreState K, st.onlyDet = false →
    (∀ e ∈ sd, (aFind st.own (applyNamesMap nm e.1)).isSome = true) →
    ((sd.foldl (restoreStep nm) st).onlyDet = false
     ∧ (sd.foldl (restoreStep nm) st).keysNew
        = st.keysNew ++ sd.map (fun e => applyNamesMap nm e.1)
     ∧ (sd.foldl (restoreStep nm) st).own.map Prod.fst
        = st.own.map Prod.fst
     ∧ (∀ k, (aFind (sd.foldl (restoreStep nm) st).own k).map TParam.size
          = (aFind st.own k).map TParam.size)
     ∧ (sd.foldl (restoreStep nm) st).mismatch
        = (st.mismatch || sd.any (fun e =>
            sizeFailB (aFind st.own (applyNamesMap nm e.1)) e.2.size))
     ∧ (∀ k, k ∉ sd.map (fun e => applyNamesMap nm e.1) →
          aFind (sd.foldl (restoreStep nm) st).own k = aFind st.own k)
     ∧ ((sd.map (fun e => applyNamesMap nm e.1)).Nodup →
        ∀ e ∈ sd, ∀ t, aFind st.own (applyNamesMap nm e.1) = some t →
          e.2.size = t.size →
          aFind (sd.foldl (restoreStep nm) st).own (applyNamesMap nm e.1)
            = some ⟨t.size, e.2.data⟩)) := by
  induction sd with
  | nil =>
    intro st hd _
    simp [hd]
  | cons e rest ih =>
    intro st hd hpres
    have hpe : (aFind st.own (applyNamesMap nm e.1)).isSome = true :=
      hpres e (List.mem_cons_self e rest)
    obtain ⟨t, ht⟩ := Option.isSome_iff_exists.1 hpe
    have hstep := restoreStep_of_present nm st e t hd ht
    have h1own : (restoreStep nm st e).own = if e.2.size = t.size
        then aUpdate st.own (applyNamesMap nm e.1) e.2.data else st.own := by
      rw [hstep]
    have h1keys : (restoreStep nm st e).own.map Prod.fst
        = st.own.map Prod.fst := by
      rw [h1own]
      by_cases hsz : e.2.size = t.size
      · simp [hsz, aUpdate_keys]
      · simp [hsz]
    have h1size : ∀ k, (aFind (restoreStep nm st e).own k).map TParam.size
        = (aFind st.own k).map TParam.size := by
      intro k
      rw [h1own]
      by_cases hsz : e.2.size = t.size
      · simp only [hsz, if_true]
        exact aFind_size_aUpdate st.own (applyNamesMap nm e.1) e.2.data k
      · simp [hsz]
    have h1ne : ∀ k, k ≠ applyNamesMap nm e.1 →
        aFind (restoreStep nm st e).own k = aFind st.own k := by
      intro k hk
      rw [h1own]
      by_cases hsz : e.2.size = t.size
      · simp only [hsz, if_true]
        exact aFind_aUpdate_ne st.own k (applyNamesMap nm e.1) e.2.data hk
      · simp [hsz]
    have h1det : (restoreStep nm st e).onlyDet = false := by rw [hstep]
    have h1mis : (restoreStep nm st e).mismatch = (st.mismatch
        || sizeFailB (aFind st.own (applyNamesMap nm e.1)) e.2.size) := by
      rw [hstep]
    have h1keysNew : (restoreStep nm st e).keysNew
        = st.keysNew ++ [applyNamesMap nm e.1] := by
      rw [hstep]
    have hpres1 : ∀ e' ∈ rest,
        (aFind (restoreStep nm st e).own (applyNamesMap nm e'.1)).isSome
          = true := by
      intro e' he'
      rw [aFind_isSome_iff, h1keys, ← aFind_isSome_iff]
      exact hpres e' (List.mem_cons_of_mem e he')
    obtain ⟨ihdet, ihkeysNew, ihkeys, ihsize, ihmis, ihne, ihcopy⟩ :=
      ih (restoreStep nm st e) h1det hpres1
    rw [List.foldl_cons]
    refine ⟨ihdet, ?_, ?_, ?_, ?_, ?_, ?_⟩
    · rw [ihkeysNew, h1keysNew, List.map_cons, List.append_assoc]
      rfl
    · rw [ihkeys, h1keys]
    · intro k
      rw [ihsize k, h1size k]
    · rw [ihmis, h1mis]
      have hfe : (fun e' => sizeFailB
            (aFind (restoreStep nm st e).own (applyNamesMap nm e'.1))
            e'.2.size)
          = (fun e' : String × TParam K => sizeFailB
            (aFind st.own (applyNamesMap nm e'.1)) e'.2.size) :=
        funext (fun e' => sizeFailB_congr _ _ _ (h1size _))
      rw [hfe, List.any_cons, Bool.or_assoc]
    · intro k hk
      rw [List.map_cons, List.mem_cons] at hk
      push_neg at hk
      obtain ⟨hk1, hk2⟩ := hk
      rw [ihne k hk2, h1ne k hk1]
    · intro hnd e' he' t' ht' hsz'
      rw [List.map_cons, List.nodup_cons] at hnd
      obtain ⟨hnotin, hndrest⟩ := hnd
      rcases List.mem_cons.1 he' with rfl | he'r
      · have htt : t' = t := by
          rw [ht] at ht'
          exact (Option.some.inj ht').symm
        subst htt
        rw [ihne _ hnotin, h1own, if_pos hsz', aFind_aUpdate_self, ht]
        rfl
      · have hner : applyNamesMap nm e'.1 ≠ applyNamesMap nm e.1 := by
          intro hkk
          exact hnotin (hkk ▸ List.mem_map_of_mem
            (fun e'' => applyNamesMap nm e''.1) he'r)
        refine ihcopy hndrest e' he'r t' ?_ hsz'
        rw [h1ne _ hner]
        exact ht'

/-- C9 counterexample: with a network holding only `detector.a` and a
checkpoint supplying only `a` (equal sizes, no rename map), the supplied key
`a` is absent from the network — per the claim an unexpected/missing-key
mismatch — yet the call returns `True`, and the network parameter
`detector.a`, which per the claim should be left unchanged, is overwritten
with the checkpoint data. -/
theorem optimistic_restore_counterexample :
    (optimisticRestore ownD sdD none).2 = true
    ∧ aFind ownD "a" = none
    ∧ aFind (optimisticRestore ownD sdD none).1 "detector.a"
        = some ⟨[1], [7]⟩
    ∧ aFind ownD "detector.a" = some ⟨[1], [5]⟩ := by
  decide

/-- C9 (amended): when every supplied key — after renaming via `names_map` —
exists in the network (so the `detector.` fallback never fires), no
mismatch raises an error; every parameter whose renamed key exists in the
network with an equal size is copied; all network parameters outside the
renamed key set are left unchanged; and the call returns `True` iff every
supplied tensor's size matches and no network key is missing from the
supplied keys. -/
theorem optimistic_restore_present_keys
    (own sd : List (String × TParam K)) (nm : Option (List (String × String)))
    (hpres : ∀ e ∈ sd, (aFind own (applyNamesMap nm e.1)).isSome = true)
    (hnodupSd : (sd.map (fun e => applyNamesMap nm e.1)).Nodup) :
    (∀ e ∈ sd, ∀ t, aFind own (applyNamesMap nm e.1) = some t →
        e.2.size = t.size →
        aFind (optimisticRestore own sd nm).1 (applyNamesMap nm e.1)
          = some ⟨t.size, e.2.data⟩)
    ∧ (∀ k, k ∉ sd.map (fun e => applyNamesMap nm e.1) →
        aFind (optimisticRestore own sd nm).1 k = aFind own k)
    ∧ ((optimisticRestore own sd nm).2 = true ↔
        ((∀ e ∈ sd, ∀ t, aFind own (applyNamesMap nm e.1) = some t →
            e.2.size = t.size)
          ∧ ∀ k ∈ own.map Prod.fst,
              k ∈ sd.map (fun e => applyNamesMap nm e.1))) := by
  obtain ⟨hdet, hkeysNew, hkeys, hsize, hmis, hne, hcopy⟩ :=
    restore_foldl_char nm sd ⟨own, false, false, []⟩ rfl hpres
  have hfst : (optimisticRestore own sd nm).1
      = (sd.foldl (restoreStep nm) ⟨own, false, false, []⟩).own := rfl
  refine ⟨?_, ?_, ?_⟩
  · intro e he t ht hsz
    rw [hfst]
    exact hcopy hnodupSd e he t ht hsz
  · intro k hk
    rw [hfst]
    exact hne k hk
  · have hval : (optimisticRestore own sd nm).2
        = !(if (own.map Prod.fst).any
              (fun k => !((sd.map (fun e => applyNamesMap nm e.1)).contains k))
            then true
            else sd.any (fun e =>
              sizeFailB (aFind own (applyNamesMap nm e.1)) e.2.size)) := by
      simp only [optimisticRestore]
      rw [hdet, hkeysNew, hmis]
      simp
    rw [hval, bool_not_if_true_iff]
    constructor
    · rintro ⟨hA, hB⟩
      constructor
      · intro e he t ht
        have hBe := List.any_eq_false.1 hB e he
        rw [ht] at hBe
        simpa [sizeFailB] using hBe
      · intro k hkmem
        have hAk := List.any_eq_false.1 hA k hkmem
        simpa [List.elem_iff] using hAk
    · rintro ⟨hsizes, hcover⟩
      constructor
      · rw [List.any_eq_false]
        intro k hkmem
        simp only [Bool.not_eq_true', Bool.not_eq_false]
        exact List.elem_iff.2 (hcover k hkmem)
      · rw [List.any_eq_false]
        intro e he
        obtain ⟨t, ht⟩ := Option.isSome_iff_exists.1 (hpres e he)
        rw [ht]
        simp only [sizeFailB, Bool.not_eq_true', Bool.not_eq_false]
        exact decide_eq_true (hsizes e he t ht)

/-- Witness for the amended C9 on a network whose two keys both appear in
the checkpoint with equal sizes: the parameter `a` is copied and the call
returns `True` (equivalently, no size mismatch and no missing key). -/
theorem optimistic_restore_present_keys_witness :
    ((∀ e ∈ sdW, (aFind ownW (applyNamesMap none e.1)).isSome = true)
      ∧ (sdW.map (fun e => applyNamesMap none e.1)).Nodup)
    ∧ aFind (optimisticRestore ownW sdW none).1 "a" = some ⟨[1], [9]⟩
    ∧ ((∀ e ∈ sdW, ∀ t, aFind ownW (applyNamesMap none e.1) = some t →
          e.2.size = t.size)
        ∧ ∀ k ∈ ownW.map Prod.fst,
            k ∈ sdW.map (fun e => applyNamesMap none e.1)) :=
  ⟨⟨by decide, by decide⟩,
   (optimistic_restore_present_keys ownW sdW none (by decide) (by decide)).1
     ("a", ⟨[1], [9]⟩) (by decide) ⟨[1], [5]⟩ (by decide) (by decide),
   ((optimistic_restore_present_keys ownW sdW none (by decide)
      (by decide)).2.2).mp (by decide)⟩

end GraphVQA
